import Mathlib

/-!
Verification of the smart daily to-do reminder app (src/app/page.tsx).

The whole program is a single client page: a `Task` store persisted to
localStorage as JSON, and a 5-second interval ("Scanner") that notifies due,
not-yet-notified tasks and reschedules repeating ones.

Shallow embedding conventions:
* Timestamps.  The code stores ISO-8601 strings and manipulates them only
  through JS `Date` calendar operations (`getTime`, `getDay`, `setDate`,
  `toISOString`).  We model a timestamp by its civil reading in a
  fixed-offset (UTC) environment: year, month, day of month and milliseconds
  within the day (`DateTime`).  Daylight-saving shifts are outside the model,
  as is the expanded `±YYYYYY` ISO year format (years outside 0..9999).
* `Date.getTime` is modeled through the standard Gregorian day-number
  algorithm (`daysFromCivil`, as in ECMAScript's MakeDay), `getDay` as the
  day number mod 7 with the 1970-01-01 = Thursday anchor.
* Fallible platform calls (`JSON.parse` throwing, `localStorage.getItem`
  returning null) are modeled with `Option`; the `try/catch` in `loadTasks`
  becomes the `Option` fallbacks.
* Nondeterministic environment inputs (`new Date()`, `crypto.randomUUID()`)
  are passed as explicit parameters.
-/

namespace Todo

/-- Civil timestamp: the calendar reading of a JS `Date` in a fixed-offset
(UTC) environment — year, month (1..12), day of month, and milliseconds
within the day.  Models the ISO-8601 timestamp strings stored in `Task`. -/
structure DateTime where
  year : Int
  month : Int
  day : Int
  ms : Int
deriving DecidableEq

/-- Day count since 1970-01-01 of a civil date: the standard Gregorian
day-number algorithm used by ECMAScript `Date` (era/year-of-era/day-of-year
decomposition).  `Int` division here is Euclidean, i.e. floor for the
positive divisors used. -/
def daysFromCivil (y m d : Int) : Int :=
  let y2 : Int := if m ≤ 2 then y - 1 else y
  let era : Int := y2 / 400
  let yoe : Int := y2 - era * 400
  let mp : Int := (m + 9) % 12
  let doy : Int := (153 * mp + 2) / 5 + d - 1
  let doe : Int := yoe * 365 + yoe / 4 - yoe / 100 + doy
  era * 146097 + doe - 719468

/-- Number of days in a civil month (Gregorian leap rule). -/
def daysInMonth (y m : Int) : Int :=
  if m = 2 then (if y % 4 = 0 ∧ (y % 100 ≠ 0 ∨ y % 400 = 0) then 29 else 28)
  else if m = 4 ∨ m = 6 ∨ m = 9 ∨ m = 11 then 30 else 31

/-- A `DateTime` that denotes a real calendar instant (what a non-`Invalid
Date` JS `Date` can hold, read in civil components). -/
def DateTime.Valid (t : DateTime) : Prop :=
  1 ≤ t.month ∧ t.month ≤ 12 ∧ 1 ≤ t.day ∧ t.day ≤ daysInMonth t.year t.month ∧
    0 ≤ t.ms ∧ t.ms < 86400000

instance (t : DateTime) : Decidable t.Valid := by
  unfold DateTime.Valid; infer_instance

/-- Day number since the epoch of a timestamp's calendar day. -/
def epochDay (t : DateTime) : Int :=
  daysFromCivil t.year t.month t.day

/-- `date.getTime()`: milliseconds since the epoch. -/
def toMillis (t : DateTime) : Int :=
  epochDay t * 86400000 + t.ms

/-- `date.getDay()`: 0 = Sunday .. 6 = Saturday (1970-01-01 was a Thursday). -/
def dayOfWeek (t : DateTime) : Int :=
  (epochDay t + 4) % 7

/-- `nextDate.setDate(nextDate.getDate() + 1)`: advance one calendar day,
preserving the time of day. -/
def nextDay (t : DateTime) : DateTime :=
  if t.day < daysInMonth t.year t.month then { t with day := t.day + 1 }
  else if t.month < 12 then { t with month := t.month + 1, day := 1 }
  else { t with year := t.year + 1, month := 1, day := 1 }

/-- `[0, 6].includes(date.getDay())`: the weekend test of the `weekdays`
reschedule loop. -/
def isWeekend (t : DateTime) : Bool :=
  decide (dayOfWeek t = 0 ∨ dayOfWeek t = 6)

/-- The `do { setDate(+1) } while (weekend)` loop after its first mandatory
step: keep advancing while on a weekend.  The loop in the code has no bound;
for valid dates it exits within two further steps (proved below), so fuel 7
computes the exact same result. -/
def skipWeekend : Nat → DateTime → DateTime
  | 0, t => t
  | fuel + 1, t => if isWeekend t then skipWeekend fuel (nextDay t) else t

/-- The complete `weekdays` reschedule: advance at least one day, then skip
any weekend days. -/
def weekdaysNext (t : DateTime) : DateTime :=
  skipWeekend 7 (nextDay t)

/-- The repeat cadence select values: `"none" | "daily" | "weekdays"`. -/
inductive Cadence where
  | none
  | daily
  | weekdays
deriving DecidableEq

/-- The `Task` record of the app.  `dateISO`, `notifiedAt` and `completedAt`
are the stored ISO timestamp strings, modeled by their calendar value; the
two optional stamps model the optional fields. -/
structure Task where
  id : String
  title : String
  dateISO : DateTime
  notifiedAt : Option DateTime
  completedAt : Option DateTime
  «repeat» : Option Cadence
deriving DecidableEq

/-- Spec §4.2: a task is eligible for notification iff it is due
(`now.getTime() >= due.getTime()`) and its notified timestamp is absent
(`!t.notifiedAt`).  This is exactly the `isDue && notSent` guard of the
scanner; the notification side effect fires precisely when it holds. -/
abbrev Eligible (now : DateTime) (t : Task) : Prop :=
  toMillis t.dateISO ≤ toMillis now ∧ t.notifiedAt = none

/-- The per-task body of the scanner interval (`prev.map(t => ...)`):
`now` is the tick's captured `new Date()` used for the due test, `stamp` the
fresh `new Date()` whose ISO string is written into `notifiedAt`.  Eligible
tasks are stamped; if the cadence is `daily` or `weekdays` the due timestamp
is advanced and the stamp is reset (`notifiedAt = undefined`). -/
def sweepTask (now stamp : DateTime) (t : Task) : Task :=
  if Eligible now t then
    let next : Task := { t with notifiedAt := some stamp }
    match t.«repeat» with
    | some Cadence.daily => { next with dateISO := nextDay t.dateISO, notifiedAt := none }
    | some Cadence.weekdays => { next with dateISO := weekdaysNext t.dateISO, notifiedAt := none }
    | _ => next
  else t

/-- One full scanner tick over the collection (`setTasks(prev => prev.map(...))`). -/
def sweepList (now stamp : DateTime) (ts : List Task) : List Task :=
  ts.map (sweepTask now stamp)

/-- A sequence of scanner ticks applied to a single task, each with its own
captured `now` and stamp time. -/
def sweeps (ticks : List (DateTime × DateTime)) (t : Task) : Task :=
  ticks.foldl (fun u p => sweepTask p.1 p.2 u) t

/-- The characters `String.prototype.trim` removes: ECMAScript TrimString
strips WhiteSpace ∪ LineTerminator, i.e. TAB, LF, VT, FF, CR, space, NBSP,
ZWNBSP (U+FEFF), the line/paragraph separators U+2028/U+2029, and the
Unicode space-separator (Zs) category: U+0020, U+00A0, U+1680,
U+2000..U+200A, U+202F, U+205F, U+3000. -/
def isWsChar (c : Char) : Bool :=
  decide (c.toNat = 0x09 ∨ c.toNat = 0x0A ∨ c.toNat = 0x0B ∨ c.toNat = 0x0C ∨
    c.toNat = 0x0D ∨ c.toNat = 0x20 ∨ c.toNat = 0xA0 ∨ c.toNat = 0x1680 ∨
    (0x2000 ≤ c.toNat ∧ c.toNat ≤ 0x200A) ∨ c.toNat = 0x2028 ∨ c.toNat = 0x2029 ∨
    c.toNat = 0x202F ∨ c.toNat = 0x205F ∨ c.toNat = 0x3000 ∨ c.toNat = 0xFEFF)

/-- `title.trim()`. -/
def trimmed (s : String) : String :=
  ⟨((s.data.dropWhile isWsChar).reverse.dropWhile isWsChar).reverse⟩

/-- `addTask`: reject blank titles (`if (!title.trim()) return`), otherwise
cons a fresh task onto the front of the collection.  `freshId` stands for
the `crypto.randomUUID()` result of this call. -/
def addTask (freshId title : String) (dateISO : DateTime) (rep : Cadence)
    (prev : List Task) : List Task :=
  if trimmed title = "" then prev
  else { id := freshId, title := trimmed title, dateISO := dateISO,
         notifiedAt := none, completedAt := none, «repeat» := some rep } :: prev

/-- `markDone(id)`: stamp `completedAt = new Date().toISOString()` on the
matching task. -/
def markDone (now : DateTime) (id : String) (prev : List Task) : List Task :=
  prev.map fun t => if t.id = id then { t with completedAt := some now } else t

/-! ### Calendar lemmas -/

theorem nextDay_ms (t : DateTime) : (nextDay t).ms = t.ms := by
  unfold nextDay; split
  · rfl
  · split <;> rfl

theorem daysInMonth_pos (y m : Int) : 1 ≤ daysInMonth y m := by
  unfold daysInMonth; split_ifs <;> omega

theorem nextDay_valid (t : DateTime) (h : t.Valid) : (nextDay t).Valid := by
  obtain ⟨y, m, d, ms⟩ := t
  obtain ⟨hm1, hm2, hd1, hd2, hms1, hms2⟩ :
      1 ≤ m ∧ m ≤ 12 ∧ 1 ≤ d ∧ d ≤ daysInMonth y m ∧ 0 ≤ ms ∧ ms < 86400000 := h
  have p1 := daysInMonth_pos y (m + 1)
  have p2 := daysInMonth_pos (y + 1) 1
  unfold nextDay
  split
  · next hlt =>
      show 1 ≤ m ∧ m ≤ 12 ∧ 1 ≤ d + 1 ∧ d + 1 ≤ daysInMonth y m ∧
        0 ≤ ms ∧ ms < 86400000
      have hlt' : d < daysInMonth y m := hlt
      omega
  · split
    · next hm12 =>
        show 1 ≤ m + 1 ∧ m + 1 ≤ 12 ∧ 1 ≤ (1 : Int) ∧ (1 : Int) ≤ daysInMonth y (m + 1) ∧
          0 ≤ ms ∧ ms < 86400000
        have hm12' : m < 12 := hm12
        omega
    · show 1 ≤ (1 : Int) ∧ (1 : Int) ≤ 12 ∧ 1 ≤ (1 : Int) ∧
        (1 : Int) ≤ daysInMonth (y + 1) 1 ∧ 0 ≤ ms ∧ ms < 86400000
      omega

theorem epochDay_nextDay (t : DateTime) (h : t.Valid) :
    epochDay (nextDay t) = epochDay t + 1 := by
  obtain ⟨y, m, d, ms⟩ := t
  obtain ⟨hm1, hm2, hd1, hd2, -, -⟩ :
      1 ≤ m ∧ m ≤ 12 ∧ 1 ≤ d ∧ d ≤ daysInMonth y m ∧ 0 ≤ ms ∧ ms < 86400000 := h
  by_cases hlt : d < daysInMonth y m
  · rw [nextDay, if_pos hlt]
    by_cases hm : m ≤ 2 <;> simp [epochDay, daysFromCivil, hm] <;> omega
  · have hd : d = daysInMonth y m := by omega
    by_cases hm12 : m < 12
    · rw [nextDay, if_neg hlt, if_pos hm12]
      subst hd
      have hm11 : m ≤ 11 := by omega
      interval_cases m <;>
        simp [epochDay, daysInMonth, daysFromCivil] <;>
        (try split_ifs) <;> omega
    · have hm : m = 12 := by omega
      subst hm hd
      rw [nextDay, if_neg hlt, if_neg hm12]
      simp [epochDay, daysInMonth, daysFromCivil]
      omega

theorem dayOfWeek_nextDay (t : DateTime) (h : t.Valid) :
    dayOfWeek (nextDay t) = (dayOfWeek t + 1) % 7 := by
  unfold dayOfWeek
  rw [epochDay_nextDay t h]
  omega

/-- Full behaviour of the `weekdays` reschedule on a valid date: it lands on
a valid date with the time of day preserved, strictly later, on a weekday,
and every calendar day strictly between start and result is a weekend day
(so the result is the earliest weekday strictly after the start). -/
theorem weekdaysNext_spec (t : DateTime) (h : t.Valid) :
    (weekdaysNext t).Valid ∧ (weekdaysNext t).ms = t.ms ∧
    epochDay t < epochDay (weekdaysNext t) ∧
    ¬(dayOfWeek (weekdaysNext t) = 0 ∨ dayOfWeek (weekdaysNext t) = 6) ∧
    (∀ k : Int, epochDay t < k → k < epochDay (weekdaysNext t) →
      (k + 4) % 7 = 0 ∨ (k + 4) % 7 = 6) := by
  have h1 : (nextDay t).Valid := nextDay_valid t h
  have e1 : epochDay (nextDay t) = epochDay t + 1 := epochDay_nextDay t h
  have m1 : (nextDay t).ms = t.ms := nextDay_ms t
  have h2 : (nextDay (nextDay t)).Valid := nextDay_valid _ h1
  have e2 : epochDay (nextDay (nextDay t)) = epochDay t + 2 := by
    rw [epochDay_nextDay _ h1, e1]; ring
  have m2 : (nextDay (nextDay t)).ms = t.ms := by rw [nextDay_ms, m1]
  have h3 : (nextDay (nextDay (nextDay t))).Valid := nextDay_valid _ h2
  have e3 : epochDay (nextDay (nextDay (nextDay t))) = epochDay t + 3 := by
    rw [epochDay_nextDay _ h2, e2]; ring
  have m3 : (nextDay (nextDay (nextDay t))).ms = t.ms := by rw [nextDay_ms, m2]
  have s7 : ∀ u, skipWeekend 7 u = if isWeekend u then skipWeekend 6 (nextDay u) else u :=
    fun _ => rfl
  have s6 : ∀ u, skipWeekend 6 u = if isWeekend u then skipWeekend 5 (nextDay u) else u :=
    fun _ => rfl
  have s5 : ∀ u, skipWeekend 5 u = if isWeekend u then skipWeekend 4 (nextDay u) else u :=
    fun _ => rfl
  by_cases hr0 : (epochDay t + 5) % 7 = 0
  · -- the day after `t` is a Sunday: skip once more and land on Monday
    have w1 : isWeekend (nextDay t) = true := by
      simp [isWeekend, dayOfWeek, e1]; omega
    have w2 : isWeekend (nextDay (nextDay t)) = false := by
      simp [isWeekend, dayOfWeek, e2]; omega
    have hres : weekdaysNext t = nextDay (nextDay t) := by
      rw [weekdaysNext, s7, w1, s6, w2]; rfl
    rw [hres]
    refine ⟨h2, m2, by omega, ?_, ?_⟩
    · simp [dayOfWeek, e2]; omega
    · intro k hk1 hk2
      rw [e2] at hk2
      have : k = epochDay t + 1 := by omega
      omega
  · by_cases hr6 : (epochDay t + 5) % 7 = 6
    · -- the day after `t` is a Saturday: skip twice and land on Monday
      have w1 : isWeekend (nextDay t) = true := by
        simp [isWeekend, dayOfWeek, e1]; omega
      have w2 : isWeekend (nextDay (nextDay t)) = true := by
        simp [isWeekend, dayOfWeek, e2]; omega
      have w3 : isWeekend (nextDay (nextDay (nextDay t))) = false := by
        simp [isWeekend, dayOfWeek, e3]; omega
      have hres : weekdaysNext t = nextDay (nextDay (nextDay t)) := by
        rw [weekdaysNext, s7, w1, s6, w2, s5, w3]; rfl
      rw [hres]
      refine ⟨h3, m3, by omega, ?_, ?_⟩
      · simp [dayOfWeek, e3]; omega
      · intro k hk1 hk2
        rw [e3] at hk2
        have : k = epochDay t + 1 ∨ k = epochDay t + 2 := by omega
        omega
    · -- the day after `t` is already a weekday
      have w1 : isWeekend (nextDay t) = false := by
        simp [isWeekend, dayOfWeek, e1]; omega
      have hres : weekdaysNext t = nextDay t := by
        rw [weekdaysNext, s7, w1]; rfl
      rw [hres]
      refine ⟨h1, m1, by omega, ?_, ?_⟩
      · simp [dayOfWeek, e1]; omega
      · intro k hk1 hk2
        rw [e1] at hk2
        omega

/-! ### Scanner transition lemmas -/

theorem sweepTask_not_eligible (now stamp : DateTime) (t : Task)
    (h : ¬ Eligible now t) : sweepTask now stamp t = t := by
  rw [sweepTask, if_neg h]

theorem sweepTask_fire_plain (now stamp : DateTime) (t : Task)
    (h : Eligible now t)
    (hrep : t.«repeat» = none ∨ t.«repeat» = some Cadence.none) :
    sweepTask now stamp t = { t with notifiedAt := some stamp } := by
  rw [sweepTask, if_pos h]
  rcases hrep with hrep | hrep <;> rw [hrep]

theorem sweepTask_fire_daily (now stamp : DateTime) (t : Task)
    (h : Eligible now t) (hrep : t.«repeat» = some Cadence.daily) :
    sweepTask now stamp t =
      { t with dateISO := nextDay t.dateISO, notifiedAt := none } := by
  rw [sweepTask, if_pos h, hrep]

theorem sweepTask_fire_weekdays (now stamp : DateTime) (t : Task)
    (h : Eligible now t) (hrep : t.«repeat» = some Cadence.weekdays) :
    sweepTask now stamp t =
      { t with dateISO := weekdaysNext t.dateISO, notifiedAt := none } := by
  rw [sweepTask, if_pos h, hrep]

/-- A single tick never moves a task's due timestamp backwards, and keeps it
a real calendar instant. -/
theorem sweepTask_mono (now stamp : DateTime) (t : Task) (hv : t.dateISO.Valid) :
    (sweepTask now stamp t).dateISO.Valid ∧
    toMillis t.dateISO ≤ toMillis (sweepTask now stamp t).dateISO := by
  by_cases h : Eligible now t
  · rcases hrep : t.«repeat» with - | c
    · rw [sweepTask_fire_plain now stamp t h (Or.inl hrep)]
      exact ⟨hv, le_refl _⟩
    · cases c with
      | none =>
        rw [sweepTask_fire_plain now stamp t h (Or.inr hrep)]
        exact ⟨hv, le_refl _⟩
      | daily =>
        rw [sweepTask_fire_daily now stamp t h hrep]
        refine ⟨nextDay_valid _ hv, ?_⟩
        show toMillis t.dateISO ≤ toMillis (nextDay t.dateISO)
        have := epochDay_nextDay _ hv
        have := nextDay_ms t.dateISO
        unfold toMillis
        omega
      | weekdays =>
        rw [sweepTask_fire_weekdays now stamp t h hrep]
        obtain ⟨hva, hms, hlt, -, -⟩ := weekdaysNext_spec _ hv
        refine ⟨hva, ?_⟩
        show toMillis t.dateISO ≤ toMillis (weekdaysNext t.dateISO)
        unfold toMillis
        omega
  · rw [sweepTask_not_eligible now stamp t h]
    exact ⟨hv, le_refl _⟩

theorem sweeps_mono (ticks : List (DateTime × DateTime)) (t : Task)
    (hv : t.dateISO.Valid) :
    (sweeps ticks t).dateISO.Valid ∧
    toMillis t.dateISO ≤ toMillis (sweeps ticks t).dateISO := by
  induction ticks generalizing t with
  | nil => exact ⟨hv, le_refl _⟩
  | cons p rest ih =>
    obtain ⟨h1, h2⟩ := sweepTask_mono p.1 p.2 t hv
    obtain ⟨h3, h4⟩ := ih (sweepTask p.1 p.2 t) h1
    exact ⟨h3, le_trans h2 h4⟩

/-- A task whose notified stamp is set and which never reschedules is left
untouched by all later ticks. -/
theorem sweeps_stamped (ticks : List (DateTime × DateTime)) (t : Task)
    (h : t.notifiedAt ≠ none) : sweeps ticks t = t := by
  induction ticks with
  | nil => rfl
  | cons p rest ih =>
    have : sweepTask p.1 p.2 t = t := by
      apply sweepTask_not_eligible
      intro he
      exact h he.2
    simp only [sweeps, List.foldl_cons, this]
    exact ih

/-! ### The claims about the Scanner -/

/-- C1: once a sweep has fired for a task (it was due with no notified
stamp), no subsequent sweep — after any further sequence of ticks — can fire
for that same occurrence: if a later tick finds the task eligible again, its
due timestamp has strictly advanced, i.e. it is a strictly later occurrence.
The transition stamps `notifiedAt` (non-repeating case, blocking all later
fires) or advances the due timestamp (repeating case) in the same step. -/
theorem claim_C1 (t : Task) (now1 stamp1 now2 : DateTime)
    (later : List (DateTime × DateTime))
    (hv : t.dateISO.Valid) (h1 : Eligible now1 t)
    (h2 : Eligible now2 (sweeps later (sweepTask now1 stamp1 t))) :
    toMillis t.dateISO < toMillis (sweeps later (sweepTask now1 stamp1 t)).dateISO := by
  rcases hrep : t.«repeat» with - | c
  · rw [sweepTask_fire_plain now1 stamp1 t h1 (Or.inl hrep)] at h2 ⊢
    rw [sweeps_stamped later _ (by simp)] at h2
    exact absurd h2.2 (by simp)
  · cases c with
    | none =>
      rw [sweepTask_fire_plain now1 stamp1 t h1 (Or.inr hrep)] at h2 ⊢
      rw [sweeps_stamped later _ (by simp)] at h2
      exact absurd h2.2 (by simp)
    | daily =>
      rw [sweepTask_fire_daily now1 stamp1 t h1 hrep]
      have hstep : toMillis t.dateISO < toMillis (nextDay t.dateISO) := by
        have := epochDay_nextDay _ hv
        have := nextDay_ms t.dateISO
        unfold toMillis
        omega
      have hrest := sweeps_mono later
        { t with dateISO := nextDay t.dateISO, notifiedAt := none }
        (by exact nextDay_valid _ hv)
      exact lt_of_lt_of_le hstep hrest.2
    | weekdays =>
      rw [sweepTask_fire_weekdays now1 stamp1 t h1 hrep]
      obtain ⟨hva, hms, hlt, -, -⟩ := weekdaysNext_spec _ hv
      have hstep : toMillis t.dateISO < toMillis (weekdaysNext t.dateISO) := by
        unfold toMillis
        omega
      have hrest := sweeps_mono later
        { t with dateISO := weekdaysNext t.dateISO, notifiedAt := none } (by exact hva)
      exact lt_of_lt_of_le hstep hrest.2

theorem claim_C1_witness :
    (⟨2024, 1, 5, 32400000⟩ : DateTime).Valid ∧
    Eligible ⟨2024, 1, 5, 32405000⟩
      ⟨"a", "gym", ⟨2024, 1, 5, 32400000⟩, none, none, some Cadence.daily⟩ ∧
    Eligible ⟨2024, 1, 6, 32405000⟩
      (sweeps [] (sweepTask ⟨2024, 1, 5, 32405000⟩ ⟨2024, 1, 5, 32406000⟩
        ⟨"a", "gym", ⟨2024, 1, 5, 32400000⟩, none, none, some Cadence.daily⟩)) ∧
    toMillis (⟨2024, 1, 5, 32400000⟩ : DateTime) <
      toMillis (sweeps [] (sweepTask ⟨2024, 1, 5, 32405000⟩ ⟨2024, 1, 5, 32406000⟩
        ⟨"a", "gym", ⟨2024, 1, 5, 32400000⟩, none, none, some Cadence.daily⟩)).dateISO :=
  ⟨by decide, by decide, by decide,
    claim_C1 ⟨"a", "gym", ⟨2024, 1, 5, 32400000⟩, none, none, some Cadence.daily⟩
      ⟨2024, 1, 5, 32405000⟩ ⟨2024, 1, 5, 32406000⟩ ⟨2024, 1, 6, 32405000⟩ []
      (by decide) (by decide) (by decide)⟩

/-- C2: a fired `weekdays` task is rescheduled to the earliest calendar day
strictly after the previous due day that is neither Saturday nor Sunday
(it always advances at least one day; day numbers `k` with weekday
`(k+4) % 7 ∈ {0, 6}` are the weekend days), with the time of day preserved,
and the notified stamp is cleared. -/
theorem claim_C2 (t : Task) (now stamp : DateTime)
    (hv : t.dateISO.Valid) (hrep : t.«repeat» = some Cadence.weekdays)
    (he : Eligible now t) :
    (sweepTask now stamp t).notifiedAt = none ∧
    (sweepTask now stamp t).dateISO.Valid ∧
    (sweepTask now stamp t).dateISO.ms = t.dateISO.ms ∧
    dayOfWeek (sweepTask now stamp t).dateISO ≠ 0 ∧
    dayOfWeek (sweepTask now stamp t).dateISO ≠ 6 ∧
    epochDay t.dateISO < epochDay (sweepTask now stamp t).dateISO ∧
    (∀ k : Int, epochDay t.dateISO < k →
      k < epochDay (sweepTask now stamp t).dateISO →
      (k + 4) % 7 = 0 ∨ (k + 4) % 7 = 6) := by
  rw [sweepTask_fire_weekdays now stamp t he hrep]
  obtain ⟨hva, hms, hlt, hwd, hmin⟩ := weekdaysNext_spec _ hv
  exact ⟨rfl, hva, hms, fun h0 => hwd (Or.inl h0), fun h6 => hwd (Or.inr h6), hlt, hmin⟩

theorem claim_C2_witness :
    (⟨2024, 1, 5, 32400000⟩ : DateTime).Valid ∧
    Eligible ⟨2024, 1, 5, 32405000⟩
      ⟨"a", "gym", ⟨2024, 1, 5, 32400000⟩, none, none, some Cadence.weekdays⟩ ∧
    (sweepTask ⟨2024, 1, 5, 32405000⟩ ⟨2024, 1, 5, 32405000⟩
        ⟨"a", "gym", ⟨2024, 1, 5, 32400000⟩, none, none, some Cadence.weekdays⟩).dateISO =
      ⟨2024, 1, 8, 32400000⟩ ∧
    (sweepTask ⟨2024, 1, 5, 32405000⟩ ⟨2024, 1, 5, 32405000⟩
        ⟨"a", "gym", ⟨2024, 1, 5, 32400000⟩, none, none, some Cadence.weekdays⟩).notifiedAt =
      none :=
  ⟨by decide, by decide, by decide,
    (claim_C2 ⟨"a", "gym", ⟨2024, 1, 5, 32400000⟩, none, none, some Cadence.weekdays⟩
      ⟨2024, 1, 5, 32405000⟩ ⟨2024, 1, 5, 32405000⟩ (by decide) rfl (by decide)).1⟩

/-- C3: a fired `daily` task is rescheduled exactly 24 hours (one calendar
day, preserving the time of day) after its previous due timestamp, and its
notified stamp is absent immediately after. -/
theorem claim_C3 (t : Task) (now stamp : DateTime)
    (hv : t.dateISO.Valid) (hrep : t.«repeat» = some Cadence.daily)
    (he : Eligible now t) :
    toMillis (sweepTask now stamp t).dateISO = toMillis t.dateISO + 86400000 ∧
    epochDay (sweepTask now stamp t).dateISO = epochDay t.dateISO + 1 ∧
    (sweepTask now stamp t).dateISO.ms = t.dateISO.ms ∧
    (sweepTask now stamp t).notifiedAt = none := by
  rw [sweepTask_fire_daily now stamp t he hrep]
  have h1 := epochDay_nextDay _ hv
  have h2 := nextDay_ms t.dateISO
  refine ⟨?_, h1, h2, rfl⟩
  show toMillis (nextDay t.dateISO) = toMillis t.dateISO + 86400000
  unfold toMillis
  omega

theorem claim_C3_witness :
    (⟨2024, 1, 5, 32400000⟩ : DateTime).Valid ∧
    Eligible ⟨2024, 1, 5, 32405000⟩
      ⟨"a", "run", ⟨2024, 1, 5, 32400000⟩, none, none, some Cadence.daily⟩ ∧
    (sweepTask ⟨2024, 1, 5, 32405000⟩ ⟨2024, 1, 5, 32405000⟩
        ⟨"a", "run", ⟨2024, 1, 5, 32400000⟩, none, none, some Cadence.daily⟩).dateISO =
      ⟨2024, 1, 6, 32400000⟩ ∧
    toMillis (sweepTask ⟨2024, 1, 5, 32405000⟩ ⟨2024, 1, 5, 32405000⟩
        ⟨"a", "run", ⟨2024, 1, 5, 32400000⟩, none, none, some Cadence.daily⟩).dateISO =
      toMillis (⟨2024, 1, 5, 32400000⟩ : DateTime) + 86400000 :=
  ⟨by decide, by decide, by decide,
    (claim_C3 ⟨"a", "run", ⟨2024, 1, 5, 32400000⟩, none, none, some Cadence.daily⟩
      ⟨2024, 1, 5, 32405000⟩ ⟨2024, 1, 5, 32405000⟩ (by decide) rfl (by decide)).1⟩

/-- C4: whenever a tick advances the due timestamp of a task whose cadence
is a repeating one, the same per-task transition also clears the notified
stamp — no transition leaves a repeating task both rescheduled and marked
notified. -/
theorem claim_C4 (t : Task) (now stamp : DateTime)
    (hrep : t.«repeat» ≠ none ∧ t.«repeat» ≠ some Cadence.none)
    (hadv : (sweepTask now stamp t).dateISO ≠ t.dateISO) :
    (sweepTask now stamp t).notifiedAt = none := by
  by_cases he : Eligible now t
  · rcases hr : t.«repeat» with - | c
    · exact absurd hr hrep.1
    · cases c with
      | none => exact absurd hr hrep.2
      | daily => rw [sweepTask_fire_daily now stamp t he hr]
      | weekdays => rw [sweepTask_fire_weekdays now stamp t he hr]
  · rw [sweepTask_not_eligible now stamp t he] at hadv
    exact absurd rfl hadv

theorem claim_C4_witness :
    ((⟨"a", "run", ⟨2024, 1, 5, 32400000⟩, none, none, some Cadence.daily⟩ : Task).«repeat» ≠
        none ∧
      (⟨"a", "run", ⟨2024, 1, 5, 32400000⟩, none, none, some Cadence.daily⟩ : Task).«repeat» ≠
        some Cadence.none) ∧
    (sweepTask ⟨2024, 1, 5, 32405000⟩ ⟨2024, 1, 5, 32405000⟩
        ⟨"a", "run", ⟨2024, 1, 5, 32400000⟩, none, none, some Cadence.daily⟩).dateISO ≠
      (⟨2024, 1, 5, 32400000⟩ : DateTime) ∧
    (sweepTask ⟨2024, 1, 5, 32405000⟩ ⟨2024, 1, 5, 32405000⟩
        ⟨"a", "run", ⟨2024, 1, 5, 32400000⟩, none, none, some Cadence.daily⟩).notifiedAt =
      none :=
  ⟨⟨by decide, by decide⟩, by decide,
    claim_C4 ⟨"a", "run", ⟨2024, 1, 5, 32400000⟩, none, none, some Cadence.daily⟩
      ⟨2024, 1, 5, 32405000⟩ ⟨2024, 1, 5, 32405000⟩ ⟨by decide, by decide⟩ (by decide)⟩

/-- C9: a non-eligible task — not yet due, or already notified — passes
through a sweep completely unchanged: no field is modified. -/
theorem claim_C9 (t : Task) (now stamp : DateTime)
    (h : toMillis now < toMillis t.dateISO ∨ t.notifiedAt ≠ none) :
    sweepTask now stamp t = t := by
  apply sweepTask_not_eligible
  intro he
  rcases h with h | h
  · exact absurd he.1 (not_le.mpr h)
  · exact h he.2

theorem claim_C9_witness :
    (toMillis (⟨2024, 1, 5, 32400000⟩ : DateTime) <
        toMillis (⟨2024, 1, 9, 0⟩ : DateTime) ∨
      (⟨"a", "run", ⟨2024, 1, 9, 0⟩, none, none, some Cadence.daily⟩ : Task).notifiedAt ≠
        none) ∧
    sweepTask ⟨2024, 1, 5, 32400000⟩ ⟨2024, 1, 5, 32400000⟩
        ⟨"a", "run", ⟨2024, 1, 9, 0⟩, none, none, some Cadence.daily⟩ =
      ⟨"a", "run", ⟨2024, 1, 9, 0⟩, none, none, some Cadence.daily⟩ :=
  ⟨Or.inl (by decide),
    claim_C9 ⟨"a", "run", ⟨2024, 1, 9, 0⟩, none, none, some Cadence.daily⟩
      ⟨2024, 1, 5, 32400000⟩ ⟨2024, 1, 5, 32400000⟩ (Or.inl (by decide))⟩

/-- C10: a tick can change at most `dateISO` and `notifiedAt`: identifier,
title, cadence and completed stamp are untouched; eligibility never consults
the completed stamp, and the whole transition commutes with any change of
the completed stamp, so a completed repeating task is notified and
rescheduled exactly like an uncompleted one. -/
theorem claim_C10 (t : Task) (now stamp : DateTime) (c : Option DateTime) :
    (sweepTask now stamp t).id = t.id ∧
    (sweepTask now stamp t).title = t.title ∧
    (sweepTask now stamp t).«repeat» = t.«repeat» ∧
    (sweepTask now stamp t).completedAt = t.completedAt ∧
    (Eligible now { t with completedAt := c } ↔ Eligible now t) ∧
    sweepTask now stamp { t with completedAt := c } =
      { sweepTask now stamp t with completedAt := c } := by
  have hcases : t.«repeat» = none ∨ t.«repeat» = some Cadence.none ∨
      t.«repeat» = some Cadence.daily ∨ t.«repeat» = some Cadence.weekdays := by
    rcases t.«repeat» with - | cc
    · exact Or.inl rfl
    · cases cc with
      | none => exact Or.inr (Or.inl rfl)
      | daily => exact Or.inr (Or.inr (Or.inl rfl))
      | weekdays => exact Or.inr (Or.inr (Or.inr rfl))
  by_cases he : Eligible now t
  · have he' : Eligible now { t with completedAt := c } := he
    rcases hcases with hr | hr | hr | hr
    · rw [sweepTask_fire_plain now stamp t he (Or.inl hr),
        sweepTask_fire_plain now stamp _ he' (Or.inl hr)]
      exact ⟨rfl, rfl, rfl, rfl, Iff.rfl, rfl⟩
    · rw [sweepTask_fire_plain now stamp t he (Or.inr hr),
        sweepTask_fire_plain now stamp _ he' (Or.inr hr)]
      exact ⟨rfl, rfl, rfl, rfl, Iff.rfl, rfl⟩
    · rw [sweepTask_fire_daily now stamp t he hr,
        sweepTask_fire_daily now stamp _ he' hr]
      exact ⟨rfl, rfl, rfl, rfl, Iff.rfl, rfl⟩
    · rw [sweepTask_fire_weekdays now stamp t he hr,
        sweepTask_fire_weekdays now stamp _ he' hr]
      exact ⟨rfl, rfl, rfl, rfl, Iff.rfl, rfl⟩
  · have he' : ¬ Eligible now { t with completedAt := c } := he
    rw [sweepTask_not_eligible now stamp t he, sweepTask_not_eligible now stamp _ he']
    exact ⟨rfl, rfl, rfl, rfl, Iff.rfl, rfl⟩

/-! ### The claims about the store mutations -/

/-- C5 counterexample: `markDone` stamps `completedAt = now` unconditionally
on the matching task, so re-invoking it on an already-completed task moves
the completed timestamp to the new call time instead of leaving it at the
first-completion time (the UI's disabled button prevents this path, but the
operation itself is not idempotent in that sense). -/
theorem claim_C5_counterexample :
    markDone ⟨2024, 1, 5, 2000⟩ "a"
        [⟨"a", "x", ⟨2024, 1, 5, 0⟩, none, some ⟨2024, 1, 5, 1000⟩, none⟩] =
      [⟨"a", "x", ⟨2024, 1, 5, 0⟩, none, some ⟨2024, 1, 5, 2000⟩, none⟩] ∧
    (⟨2024, 1, 5, 2000⟩ : DateTime) ≠ ⟨2024, 1, 5, 1000⟩ := by
  exact ⟨by decide, by decide⟩

/-- C5 (amended): `markDone(id)` sets the completed timestamp of every
matching task to the current time — overwriting any earlier completion
stamp — leaves all other fields and all non-matching tasks unchanged, and is
a no-op when no task matches the identifier. -/
theorem claim_C5 (now : DateTime) (id : String) (l : List Task) :
    ((∀ t ∈ l, t.id ≠ id) → markDone now id l = l) ∧
    (markDone now id l).length = l.length ∧
    (∀ i (h1 : i < l.length) (h2 : i < (markDone now id l).length),
      (markDone now id l)[i] =
        if l[i].id = id then { l[i] with completedAt := some now } else l[i]) := by
  refine ⟨?_, by simp [markDone], ?_⟩
  · intro h
    induction l with
    | nil => rfl
    | cons t rest ih =>
      have h1 : t.id ≠ id := h t (by simp)
      have h2 : markDone now id rest = rest := ih fun u hu => h u (by simp [hu])
      simp only [markDone, List.map_cons, if_neg h1] at h2 ⊢
      rw [h2]
  · intro i h1 h2
    simp [markDone]

theorem claim_C5_witness :
    markDone ⟨2024, 1, 6, 0⟩ "zz"
        [⟨"a", "x", ⟨2024, 1, 5, 0⟩, none, some ⟨2024, 1, 5, 1000⟩, none⟩] =
      [⟨"a", "x", ⟨2024, 1, 5, 0⟩, none, some ⟨2024, 1, 5, 1000⟩, none⟩] ∧
    (markDone ⟨2024, 1, 6, 0⟩ "a"
        [⟨"a", "x", ⟨2024, 1, 5, 0⟩, none, some ⟨2024, 1, 5, 1000⟩, none⟩])[0] =
      ⟨"a", "x", ⟨2024, 1, 5, 0⟩, none, some ⟨2024, 1, 6, 0⟩, none⟩ :=
  ⟨(claim_C5 ⟨2024, 1, 6, 0⟩ "zz"
      [⟨"a", "x", ⟨2024, 1, 5, 0⟩, none, some ⟨2024, 1, 5, 1000⟩, none⟩]).1 (by decide),
    by
      rw [(claim_C5 ⟨2024, 1, 6, 0⟩ "a"
        [⟨"a", "x", ⟨2024, 1, 5, 0⟩, none, some ⟨2024, 1, 5, 1000⟩, none⟩]).2.2 0
        (by decide) (by decide)]
      decide⟩

/-- C6: `addTask` with a blank or whitespace-only title is a no-op;
otherwise, provided the generated identifier is fresh (the
`crypto.randomUUID()` assumption), it prepends exactly one new task carrying
that identifier, leaving all previously stored tasks unchanged and in
order. -/
theorem claim_C6 (freshId title : String) (dt : DateTime) (rep : Cadence)
    (prev : List Task) :
    (trimmed title = "" → addTask freshId title dt rep prev = prev) ∧
    (trimmed title ≠ "" → freshId ∉ prev.map Task.id →
      addTask freshId title dt rep prev =
        { id := freshId, title := trimmed title, dateISO := dt, notifiedAt := none,
          completedAt := none, «repeat» := some rep } :: prev ∧
      ∀ t ∈ prev, t.id ≠ freshId) := by
  constructor
  · intro h
    rw [addTask, if_pos h]
  · intro h hfresh
    refine ⟨by rw [addTask, if_neg h], ?_⟩
    intro t ht heq
    exact hfresh (heq ▸ List.mem_map_of_mem Task.id ht)

theorem claim_C6_witness :
    addTask "u1" "   " ⟨2024, 1, 5, 32400000⟩ Cadence.none
        [⟨"a", "x", ⟨2024, 1, 5, 0⟩, none, none, none⟩] =
      [⟨"a", "x", ⟨2024, 1, 5, 0⟩, none, none, none⟩] ∧
    addTask "u1" " Pay rent " ⟨2024, 1, 5, 32400000⟩ Cadence.daily
        [⟨"a", "x", ⟨2024, 1, 5, 0⟩, none, none, none⟩] =
      ⟨"u1", "Pay rent", ⟨2024, 1, 5, 32400000⟩, none, none, some Cadence.daily⟩ ::
        [⟨"a", "x", ⟨2024, 1, 5, 0⟩, none, none, none⟩] :=
  ⟨(claim_C6 "u1" "   " ⟨2024, 1, 5, 32400000⟩ Cadence.none
      [⟨"a", "x", ⟨2024, 1, 5, 0⟩, none, none, none⟩]).1 (by decide),
    ((claim_C6 "u1" " Pay rent " ⟨2024, 1, 5, 32400000⟩ Cadence.daily
      [⟨"a", "x", ⟨2024, 1, 5, 0⟩, none, none, none⟩]).2 (by decide) (by decide)).1⟩

/-! ### Persistence: `JSON.stringify` / `JSON.parse` / localStorage

`saveTasks` stores `JSON.stringify(tasks)` under one fixed key;
`loadTasks` reads it back with `JSON.parse` inside `try/catch`.  The
stored value is modeled as `Option String` (`null` from `getItem` =
`none`).  The serializer is `JSON.stringify` specialized to the `Task[]`
shape (all leaf values are strings; `undefined` optional fields are
omitted; no whitespace); the parser is a general JSON reader, restricted
to the whitespace-free documents `JSON.stringify` emits.  Timestamps are
serialized in the `toISOString` basic format `YYYY-MM-DDTHH:MM:SS.mmmZ`
(expanded-year timestamps are outside the model).  `JSON.parse` performs
no schema validation in JS; the typed decoding below is its shadow on
well-formed task arrays, and any document that does not decode ends in
the same `[]` result that the `try/catch` produces for the non-array
documents `parsed.map` throws on. -/

/-- Lowercase hex digit, as `Number.prototype.toString(16)` produces. -/
def hexDigitChar (n : Nat) : Char :=
  if n < 10 then Char.ofNat (48 + n) else Char.ofNat (87 + n)

/-- Value of a hex digit character. -/
def hexVal (c : Char) : Option Nat :=
  if 48 ≤ c.toNat ∧ c.toNat ≤ 57 then some (c.toNat - 48)
  else if 97 ≤ c.toNat ∧ c.toNat ≤ 102 then some (c.toNat - 87)
  else if 65 ≤ c.toNat ∧ c.toNat ≤ 70 then some (c.toNat - 55)
  else none

/-- Value of a decimal digit character. -/
def digitVal (c : Char) : Option Nat :=
  if 48 ≤ c.toNat ∧ c.toNat ≤ 57 then some (c.toNat - 48) else none

/-- `QuoteJSONString` escaping of one character: `"` and `\` get a
backslash, the five named control characters their short escapes, other
control characters a `\u00xx` escape, everything else stands for itself. -/
def escapeChar (c : Char) : List Char :=
  if c = '"' then ['\\', '"']
  else if c = '\\' then ['\\', '\\']
  else if c = Char.ofNat 8 then ['\\', 'b']
  else if c = Char.ofNat 12 then ['\\', 'f']
  else if c = '\n' then ['\\', 'n']
  else if c = Char.ofNat 13 then ['\\', 'r']
  else if c = '\t' then ['\\', 't']
  else if c.toNat < 32 then
    ['\\', 'u', '0', '0', hexDigitChar (c.toNat / 16), hexDigitChar (c.toNat % 16)]
  else [c]

def escapeString : List Char → List Char
  | [] => []
  | c :: cs => escapeChar c ++ escapeString cs

/-- A JSON string literal: quote, escaped contents, quote. -/
def printString (s : List Char) : List Char :=
  '"' :: escapeString s ++ ['"']

/-- The single-character JSON string escapes. -/
def simpleUnescape (e : Char) : Option Char :=
  if e = '"' then some '"'
  else if e = '\\' then some '\\'
  else if e = '/' then some '/'
  else if e = 'b' then some (Char.ofNat 8)
  else if e = 'f' then some (Char.ofNat 12)
  else if e = 'n' then some '\n'
  else if e = 'r' then some (Char.ofNat 13)
  else if e = 't' then some '\t'
  else none

/-- Read a JSON string body up to its closing quote, resolving escapes;
returns the decoded string and the unconsumed input. -/
def parseStringBody : List Char → Option (List Char × List Char)
  | [] => none
  | c :: rest =>
    if c = '"' then some ([], rest)
    else if c = '\\' then
      match rest with
      | [] => none
      | e :: rest2 =>
        if e = 'u' then
          match rest2 with
          | h1 :: h2 :: h3 :: h4 :: rest3 =>
            match hexVal h1, hexVal h2, hexVal h3, hexVal h4 with
            | some a, some b, some c2, some d2 =>
              (parseStringBody rest3).map fun sr =>
                (Char.ofNat (((a * 16 + b) * 16 + c2) * 16 + d2) :: sr.1, sr.2)
            | _, _, _, _ => none
          | _ => none
        else
          match simpleUnescape e with
          | some u => (parseStringBody rest2).map fun sr => (u :: sr.1, sr.2)
          | none => none
    else if c.toNat < 32 then none
    else (parseStringBody rest).map fun sr => (c :: sr.1, sr.2)

/-- Fixed-width decimal printing for the ISO timestamp fields. -/
def pad2 (n : Int) : List Char :=
  [Char.ofNat (48 + n.toNat / 10 % 10), Char.ofNat (48 + n.toNat % 10)]

def pad3 (n : Int) : List Char :=
  [Char.ofNat (48 + n.toNat / 100 % 10), Char.ofNat (48 + n.toNat / 10 % 10),
    Char.ofNat (48 + n.toNat % 10)]

def pad4 (n : Int) : List Char :=
  [Char.ofNat (48 + n.toNat / 1000 % 10), Char.ofNat (48 + n.toNat / 100 % 10),
    Char.ofNat (48 + n.toNat / 10 % 10), Char.ofNat (48 + n.toNat % 10)]

/-- `date.toISOString()`: `YYYY-MM-DDTHH:MM:SS.mmmZ` (basic format, years
0..9999). -/
def toIso (t : DateTime) : List Char :=
  pad4 t.year ++ '-' :: pad2 t.month ++ '-' :: pad2 t.day ++
    'T' :: pad2 (t.ms / 3600000) ++ ':' :: pad2 (t.ms % 3600000 / 60000) ++
    ':' :: pad2 (t.ms % 60000 / 1000) ++ '.' :: pad3 (t.ms % 1000) ++ ['Z']

def dec2 (a b : Char) : Option Int :=
  match digitVal a, digitVal b with
  | some x, some y => some ((x * 10 + y : Nat) : Int)
  | _, _ => none

def dec3 (a b c : Char) : Option Int :=
  match digitVal a, digitVal b, digitVal c with
  | some x, some y, some z => some (((x * 10 + y) * 10 + z : Nat) : Int)
  | _, _, _ => none

def dec4 (a b c d : Char) : Option Int :=
  match digitVal a, digitVal b, digitVal c, digitVal d with
  | some x, some y, some z, some w => some ((((x * 10 + y) * 10 + z) * 10 + w : Nat) : Int)
  | _, _, _, _ => none

/-- `new Date(s)` on the strict `toISOString` format (the only format the
store ever persists): read the civil components back. -/
def parseIso (s : List Char) : Option DateTime :=
  match s with
  | [y1, y2, y3, y4, s1, m1, m2, s2, d1, d2, s3, h1, h2, s4, i1, i2, s5, e1, e2, s6,
      f1, f2, f3, s7] =>
    if s1 = '-' ∧ s2 = '-' ∧ s3 = 'T' ∧ s4 = ':' ∧ s5 = ':' ∧ s6 = '.' ∧ s7 = 'Z' then
      match dec4 y1 y2 y3 y4, dec2 m1 m2, dec2 d1 d2, dec2 h1 h2, dec2 i1 i2,
          dec2 e1 e2, dec3 f1 f2 f3 with
      | some y, some mo, some dd, some hh, some mi, some ss, some ff =>
        some ⟨y, mo, dd, hh * 3600000 + mi * 60000 + ss * 1000 + ff⟩
      | _, _, _, _, _, _, _ => none
    else none
  | _ => none

/-- JSON documents (number literals are kept as their raw lexeme; the app
never stores numbers). -/
inductive Json where
  | null : Json
  | bool : Bool → Json
  | num : List Char → Json
  | str : List Char → Json
  | arr : List Json → Json
  | obj : List (List Char × Json) → Json

instance : Inhabited Json := ⟨Json.null⟩

/-- Characters that may continue a number lexeme. -/
def isNumCont (c : Char) : Bool :=
  c.isDigit || c = '.' || c = 'e' || c = 'E' || c = '+' || c = '-'

mutual

/-- Read one JSON value.  The fuel only bounds the recursion depth of the
grammar; `jsonParse` supplies more fuel than any input can consume. -/
def parseValue : Nat → List Char → Option (Json × List Char)
  | 0, _ => none
  | fuel + 1, cs =>
    match cs with
    | [] => none
    | c :: rest =>
      if c = '"' then (parseStringBody rest).map fun sr => (Json.str sr.1, sr.2)
      else if c = '[' then
        match rest with
        | [] => none
        | c2 :: r2 =>
          if c2 = ']' then some (Json.arr [], r2)
          else (parseElems fuel (c2 :: r2)).map fun vr => (Json.arr vr.1, vr.2)
      else if c = '{' then
        match rest with
        | [] => none
        | c2 :: r2 =>
          if c2 = '}' then some (Json.obj [], r2)
          else (parseMembers fuel (c2 :: r2)).map fun vr => (Json.obj vr.1, vr.2)
      else if c = 't' then
        match rest with
        | 'r' :: 'u' :: 'e' :: r2 => some (Json.bool true, r2)
        | _ => none
      else if c = 'f' then
        match rest with
        | 'a' :: 'l' :: 's' :: 'e' :: r2 => some (Json.bool false, r2)
        | _ => none
      else if c = 'n' then
        match rest with
        | 'u' :: 'l' :: 'l' :: r2 => some (Json.null, r2)
        | _ => none
      else if c.isDigit ∨ c = '-' then
        some (Json.num (c :: rest.takeWhile isNumCont), rest.dropWhile isNumCont)
      else none

/-- Read the elements of a non-empty array up to the closing bracket. -/
def parseElems : Nat → List Char → Option (List Json × List Char)
  | 0, _ => none
  | fuel + 1, cs =>
    match parseValue fuel cs with
    | none => none
    | some (v, r) =>
      match r with
      | [] => none
      | c :: r2 =>
        if c = ',' then (parseElems fuel r2).map fun vr => (v :: vr.1, vr.2)
        else if c = ']' then some ([v], r2)
        else none

/-- Read the members of a non-empty object up to the closing brace. -/
def parseMembers : Nat → List Char → Option (List (List Char × Json) × List Char)
  | 0, _ => none
  | fuel + 1, cs =>
    match cs with
    | [] => none
    | c :: rest =>
      if c = '"' then
        match parseStringBody rest with
        | none => none
        | some (k, r) =>
          match r with
          | [] => none
          | c2 :: r2 =>
            if c2 = ':' then
              match parseValue fuel r2 with
              | none => none
              | some (v, r3) =>
                match r3 with
                | [] => none
                | c3 :: r4 =>
                  if c3 = ',' then
                    (parseMembers fuel r4).map fun mr => ((k, v) :: mr.1, mr.2)
                  else if c3 = '}' then some ([(k, v)], r4)
                  else none
            else none
      else none

end

/-- `JSON.parse`: read one value consuming the entire input. -/
def jsonParse (raw : String) : Option Json :=
  match parseValue (raw.data.length + 1) raw.data with
  | some (j, []) => some j
  | _ => none

/-- The stored `repeat` select value. -/
def cadenceStr : Cadence → List Char
  | Cadence.none => "none".data
  | Cadence.daily => "daily".data
  | Cadence.weekdays => "weekdays".data

/-- The key/value string pairs of one serialized task, in the property
order of a task created by `addTask` and later stamped; `undefined`
optional fields are omitted, as `JSON.stringify` does.  (The decoder looks
fields up by name, so member order is irrelevant to the round trip.) -/
def taskMembers (t : Task) : List (List Char × List Char) :=
  [("id".data, t.id.data), ("title".data, t.title.data),
    ("dateISO".data, toIso t.dateISO)] ++
  (match t.notifiedAt with
   | some d => [("notifiedAt".data, toIso d)]
   | none => []) ++
  (match t.completedAt with
   | some d => [("completedAt".data, toIso d)]
   | none => []) ++
  (match t.«repeat» with
   | some c => [("repeat".data, cadenceStr c)]
   | none => [])

def printMember (kv : List Char × List Char) : List Char :=
  printString kv.1 ++ ':' :: printString kv.2

/-- Comma-prefixed members after the first one. -/
def printMembersTail : List (List Char × List Char) → List Char
  | [] => []
  | kv :: rest => ',' :: printMember kv ++ printMembersTail rest

/-- Comma-separated object members. -/
def printMembers : List (List Char × List Char) → List Char
  | [] => []
  | kv :: rest => printMember kv ++ printMembersTail rest

def printObj (t : Task) : List Char :=
  '{' :: printMembers (taskMembers t) ++ ['}']

/-- Comma-prefixed array elements after the first one. -/
def printTasksTail : List Task → List Char
  | [] => []
  | t :: rest => ',' :: printObj t ++ printTasksTail rest

/-- Comma-separated serialized tasks. -/
def printTasks : List Task → List Char
  | [] => []
  | t :: rest => printObj t ++ printTasksTail rest

def stringifyTasks (ts : List Task) : List Char :=
  '[' :: printTasks ts ++ [']']

/-- `saveTasks`: the string written to `localStorage` —
`JSON.stringify(tasks)`. -/
def saveTasks (ts : List Task) : String :=
  ⟨stringifyTasks ts⟩

/-- The JSON document a serialized task denotes. -/
def encodeTask (t : Task) : Json :=
  Json.obj ((taskMembers t).map fun kv => (kv.1, Json.str kv.2))

def encodeTasks (ts : List Task) : Json :=
  Json.arr (ts.map encodeTask)

/-- Property access on a parsed JSON object (our encodings never contain
duplicate keys, so first and last occurrence coincide). -/
def lookupKV (k : List Char) : List (List Char × Json) → Option Json
  | [] => none
  | kv :: rest => if kv.1 = k then some kv.2 else lookupKV k rest

def getStr : Option Json → Option (List Char)
  | some (Json.str s) => some s
  | _ => none

def decodeCadence (s : List Char) : Option Cadence :=
  if s = "none".data then some Cadence.none
  else if s = "daily".data then some Cadence.daily
  else if s = "weekdays".data then some Cadence.weekdays
  else none

def decodeOptIso : Option Json → Option (Option DateTime)
  | none => some none
  | some (Json.str s) => (parseIso s).map some
  | some _ => none

def decodeOptCadence : Option Json → Option (Option Cadence)
  | none => some none
  | some (Json.str s) => (decodeCadence s).map some
  | some _ => none

/-- The typed reading of one parsed task object (`{...t}` in the code). -/
def decodeTask (j : Json) : Option Task :=
  match j with
  | Json.obj kvs =>
    match getStr (lookupKV "id".data kvs), getStr (lookupKV "title".data kvs),
        (getStr (lookupKV "dateISO".data kvs)).bind parseIso,
        decodeOptIso (lookupKV "notifiedAt".data kvs),
        decodeOptIso (lookupKV "completedAt".data kvs),
        decodeOptCadence (lookupKV "repeat".data kvs) with
    | some i, some ti, some dt, some nA, some cA, some rp =>
      some ⟨⟨i⟩, ⟨ti⟩, dt, nA, cA, rp⟩
    | _, _, _, _, _, _ => none
  | _ => none

def decodeTaskList : List Json → Option (List Task)
  | [] => some []
  | x :: rest =>
    match decodeTask x, decodeTaskList rest with
    | some t, some ts => some (t :: ts)
    | _, _ => none

/-- The typed reading of a parsed task array (`parsed.map(t => ({...t}))`;
a non-array `parsed` throws there in JS and lands in the `catch`). -/
def decodeTasks : Json → Option (List Task)
  | Json.arr xs => decodeTaskList xs
  | _ => none

/-- `loadTasks`: absent or empty stored value, a `JSON.parse` failure, or a
document that is not a task array all degrade to the empty collection; a
well-formed stored task array is returned as parsed. -/
def loadTasks (stored : Option String) : List Task :=
  match stored with
  | none => []
  | some raw =>
    if raw = "" then []
    else
      match jsonParse raw with
      | none => []
      | some j =>
        match decodeTasks j with
        | some ts => ts
        | none => []

/-- A timestamp `toISOString` can represent in the basic format: a real
calendar instant with year 0..9999. -/
def ValidISO (t : DateTime) : Prop :=
  t.Valid ∧ 0 ≤ t.year ∧ t.year ≤ 9999

instance (t : DateTime) : Decidable (ValidISO t) := by
  unfold ValidISO; infer_instance

/-- All timestamps of a task are representable. -/
def GoodTask (t : Task) : Prop :=
  ValidISO t.dateISO ∧ (∀ d ∈ t.notifiedAt, ValidISO d) ∧
    (∀ d ∈ t.completedAt, ValidISO d)

instance (t : Task) : Decidable (GoodTask t) := by
  unfold GoodTask; infer_instance

/-! ### Round trip, layer 1: string literals -/

theorem hexVal_hexDigitChar (n : Nat) (h : n < 16) :
    hexVal (hexDigitChar n) = some n := by
  interval_cases n <;> decide

theorem digitVal_digit (n : Nat) (h : n < 10) :
    digitVal (Char.ofNat (48 + n)) = some n := by
  interval_cases n <;> decide

theorem digitVal_mod (k : Nat) :
    digitVal (Char.ofNat (48 + k % 10)) = some (k % 10) :=
  digitVal_digit _ (Nat.mod_lt _ (by omega))

theorem parseStringBody_escapeChar (c : Char) (tail : List Char) :
    parseStringBody (escapeChar c ++ tail) =
      (parseStringBody tail).map fun sr => (c :: sr.1, sr.2) := by
  by_cases h1 : c = '"'
  · subst h1; simp +decide [escapeChar]; rw [parseStringBody.eq_def]
    simp +decide [simpleUnescape]
  · by_cases h2 : c = '\\'
    · subst h2; simp +decide [escapeChar]; rw [parseStringBody.eq_def]
      simp +decide [simpleUnescape]
    · by_cases h3 : c = Char.ofNat 8
      · subst h3; simp +decide [escapeChar]; rw [parseStringBody.eq_def]
        simp +decide [simpleUnescape]
      · by_cases h4 : c = Char.ofNat 12
        · subst h4; simp +decide [escapeChar]; rw [parseStringBody.eq_def]
          simp +decide [simpleUnescape]
        · by_cases h5 : c = '\n'
          · subst h5; simp +decide [escapeChar]; rw [parseStringBody.eq_def]
            simp +decide [simpleUnescape]
          · by_cases h6 : c = Char.ofNat 13
            · subst h6; simp +decide [escapeChar]; rw [parseStringBody.eq_def]
              simp +decide [simpleUnescape]
            · by_cases h7 : c = '\t'
              · subst h7; simp +decide [escapeChar]; rw [parseStringBody.eq_def]
                simp +decide [simpleUnescape]
              · by_cases h8 : c.toNat < 32
                · have ha : hexVal (hexDigitChar (c.toNat / 16)) = some (c.toNat / 16) :=
                    hexVal_hexDigitChar _ (by omega)
                  have hb : hexVal (hexDigitChar (c.toNat % 16)) = some (c.toNat % 16) :=
                    hexVal_hexDigitChar _ (by omega)
                  have h0 : hexVal '0' = some 0 := by decide
                  have hrt : Char.ofNat (c.toNat / 16 * 16 + c.toNat % 16) = c := by
                    have harith : c.toNat / 16 * 16 + c.toNat % 16 = c.toNat := by omega
                    rw [harith, Char.ofNat_toNat]
                  simp only [escapeChar, if_neg h1, if_neg h2, if_neg h3, if_neg h4,
                    if_neg h5, if_neg h6, if_neg h7, if_pos h8, List.cons_append,
                    List.nil_append]
                  rw [parseStringBody.eq_def]
                  simp +decide [ha, hb, h0, hrt]
                · simp only [escapeChar, if_neg h1, if_neg h2, if_neg h3, if_neg h4,
                    if_neg h5, if_neg h6, if_neg h7, if_neg h8, List.cons_append,
                    List.nil_append]
                  rw [parseStringBody.eq_def]
                  simp [if_neg h1, if_neg h2, if_neg h8]

theorem parseStringBody_print (s rest : List Char) :
    parseStringBody (escapeString s ++ '"' :: rest) = some (s, rest) := by
  induction s with
  | nil =>
    simp only [escapeString, List.nil_append]
    rw [parseStringBody.eq_def]
    simp +decide
  | cons c cs ih =>
    rw [escapeString, List.append_assoc, parseStringBody_escapeChar, ih]
    rfl

theorem parseValue_printString (v : List Char) (fuel : Nat) (rest : List Char)
    (hf : 1 ≤ fuel) :
    parseValue fuel (printString v ++ rest) = some (Json.str v, rest) := by
  obtain ⟨fuel, rfl⟩ : ∃ f, fuel = f + 1 := ⟨fuel - 1, by omega⟩
  simp only [printString, List.cons_append, List.append_assoc, List.nil_append]
  simp +decide [parseValue, parseStringBody_print]

/-! ### Round trip, layer 2: ISO timestamps -/

theorem parseIso_toIso (t : DateTime) (h : ValidISO t) :
    parseIso (toIso t) = some t := by
  obtain ⟨y, m, d, ms⟩ := t
  obtain ⟨⟨hm1, hm2, hd1, hd2, hms1, hms2⟩, hy0, hy9⟩ :
      (1 ≤ m ∧ m ≤ 12 ∧ 1 ≤ d ∧ d ≤ daysInMonth y m ∧ 0 ≤ ms ∧ ms < 86400000) ∧
        0 ≤ y ∧ y ≤ 9999 := h
  have hdm : daysInMonth y m ≤ 31 := by
    unfold daysInMonth; split_ifs <;> omega
  simp only [toIso, pad4, pad2, pad3, List.cons_append, List.nil_append,
    List.append_assoc]
  rw [parseIso.eq_def]
  simp +decide [dec4, dec2, dec3, digitVal_mod]
  omega

/-! ### Round trip, layer 3: objects and arrays -/

theorem printString_expose (s X : List Char) :
    printString s ++ X = '"' :: (escapeString s ++ '"' :: X) := by
  simp [printString]

theorem parseMembers_print_aux (kvs : List (List Char × List Char)) :
    ∀ (k v : List Char) (fuel : Nat) (rest : List Char), kvs.length + 2 ≤ fuel →
    parseMembers fuel ('"' :: (escapeString k ++ '"' :: (':' :: (printString v ++
        (printMembersTail kvs ++ '}' :: rest))))) =
      some ((k, Json.str v) :: kvs.map (fun kv => (kv.1, Json.str kv.2)), rest) := by
  induction kvs with
  | nil =>
    intro k v fuel rest hf
    obtain ⟨f, rfl⟩ : ∃ f, fuel = f + 1 := ⟨fuel - 1, by omega⟩
    have hpv : ∀ X, parseValue f (printString v ++ X) = some (Json.str v, X) :=
      fun X => parseValue_printString v f X (by omega)
    rw [parseMembers.eq_def]
    simp +decide [parseStringBody_print, hpv, printMembersTail]
  | cons kv2 kvs2 ih =>
    intro k v fuel rest hf
    obtain ⟨f, rfl⟩ : ∃ f, fuel = f + 1 := ⟨fuel - 1, by omega⟩
    have hpv : ∀ X, parseValue f (printString v ++ X) = some (Json.str v, X) :=
      fun X => parseValue_printString v f X (by omega)
    rw [parseMembers.eq_def]
    simp +decide [parseStringBody_print, hpv, printMembersTail, printMember,
      List.append_assoc, List.cons_append]
    rw [printString_expose,
      ih kv2.1 kv2.2 f rest (by simp only [List.length_cons] at hf; omega)]

theorem parseMembers_print (kv : List Char × List Char)
    (kvs : List (List Char × List Char)) (fuel : Nat) (rest : List Char)
    (hf : kvs.length + 2 ≤ fuel) :
    parseMembers fuel (printMembers (kv :: kvs) ++ '}' :: rest) =
      some ((kv :: kvs).map fun p => (p.1, Json.str p.2), rest) := by
  have key : printMembers (kv :: kvs) ++ '}' :: rest =
      '"' :: (escapeString kv.1 ++ '"' :: (':' :: (printString kv.2 ++
        (printMembersTail kvs ++ '}' :: rest)))) := by
    simp only [printMembers, printMember, List.append_assoc, List.cons_append]
    rw [printString_expose]
  rw [key, parseMembers_print_aux kvs kv.1 kv.2 fuel rest hf]
  rfl

theorem parseValue_printMembers (kv : List Char × List Char)
    (kvs : List (List Char × List Char)) (fuel : Nat) (rest : List Char)
    (hf : kvs.length + 3 ≤ fuel) :
    parseValue fuel ('{' :: (printMembers (kv :: kvs) ++ '}' :: rest)) =
      some (Json.obj ((kv :: kvs).map fun p => (p.1, Json.str p.2)), rest) := by
  obtain ⟨f, rfl⟩ : ∃ f, fuel = f + 1 := ⟨fuel - 1, by omega⟩
  have key : printMembers (kv :: kvs) ++ '}' :: rest =
      '"' :: (escapeString kv.1 ++ '"' :: (':' :: (printString kv.2 ++
        (printMembersTail kvs ++ '}' :: rest)))) := by
    simp only [printMembers, printMember, List.append_assoc, List.cons_append]
    rw [printString_expose]
  rw [parseValue.eq_def, key]
  simp +decide [parseMembers_print_aux kvs kv.1 kv.2 f rest (by omega)]

/-- Any task's member list starts with the three mandatory fields. -/
theorem taskMembers_eq (t : Task) :
    taskMembers t = ("id".data, t.id.data) :: ("title".data, t.title.data) ::
      ("dateISO".data, toIso t.dateISO) ::
      ((match t.notifiedAt with
        | some d => [("notifiedAt".data, toIso d)]
        | none => []) ++
       (match t.completedAt with
        | some d => [("completedAt".data, toIso d)]
        | none => []) ++
       (match t.«repeat» with
        | some c => [("repeat".data, cadenceStr c)]
        | none => [])) := rfl

theorem taskMembers_len (t : Task) : (taskMembers t).length ≤ 6 := by
  rw [taskMembers_eq]
  rcases t.notifiedAt with - | a <;> rcases t.completedAt with - | b <;>
    rcases t.«repeat» with - | c <;> simp

theorem parseValue_printObj (t : Task) (fuel : Nat) (rest : List Char)
    (hf : 9 ≤ fuel) :
    parseValue fuel (printObj t ++ rest) = some (encodeTask t, rest) := by
  have hobj : printObj t ++ rest = '{' :: (printMembers (taskMembers t) ++ '}' :: rest) := by
    simp [printObj]
  have hlen := taskMembers_len t
  rw [hobj, taskMembers_eq] at *
  rw [parseValue_printMembers _ _ fuel rest (by simp at hlen ⊢; omega)]
  rfl

theorem parseElems_print (l : List Task) :
    ∀ (t : Task) (fuel : Nat) (rest : List Char), l.length + 10 ≤ fuel →
    parseElems fuel (printObj t ++ (printTasksTail l ++ ']' :: rest)) =
      some ((t :: l).map encodeTask, rest) := by
  induction l with
  | nil =>
    intro t fuel rest hf
    obtain ⟨f, rfl⟩ : ∃ f, fuel = f + 1 := ⟨fuel - 1, by omega⟩
    rw [parseElems.eq_def,
      show printTasksTail [] ++ ']' :: rest = ']' :: rest from by simp [printTasksTail]]
    simp +decide [parseValue_printObj t f (']' :: rest) (by omega)]
  | cons t2 l2 ih =>
    intro t fuel rest hf
    obtain ⟨f, rfl⟩ : ∃ f, fuel = f + 1 := ⟨fuel - 1, by omega⟩
    rw [parseElems.eq_def,
      show printTasksTail (t2 :: l2) ++ ']' :: rest =
        ',' :: (printObj t2 ++ (printTasksTail l2 ++ ']' :: rest)) from by
          simp [printTasksTail]]
    simp +decide [parseValue_printObj t f
        (',' :: (printObj t2 ++ (printTasksTail l2 ++ ']' :: rest)))
        (by simp only [List.length_cons] at hf; omega),
      ih t2 f rest (by simp only [List.length_cons] at hf; omega)]

theorem parseValue_stringify (ts : List Task) (fuel : Nat)
    (hf : 1 ≤ fuel) (hf2 : ts = [] ∨ ts.length + 11 ≤ fuel) :
    parseValue fuel (stringifyTasks ts) = some (encodeTasks ts, []) := by
  obtain ⟨f, rfl⟩ : ∃ f, fuel = f + 1 := ⟨fuel - 1, by omega⟩
  cases ts with
  | nil =>
    rw [parseValue.eq_def]
    simp +decide [stringifyTasks, printTasks, encodeTasks]
  | cons t l =>
    have hb : l.length + 10 ≤ f := by
      rcases hf2 with h | h
      · exact absurd h (by simp)
      · simp only [List.length_cons] at h; omega
    rw [show stringifyTasks (t :: l) =
        '[' :: ('{' :: (printMembers (taskMembers t) ++
          ('}' :: (printTasksTail l ++ [']'])))) from by
      simp [stringifyTasks, printTasks, printObj],
      parseValue.eq_def]
    have refold : '{' :: (printMembers (taskMembers t) ++
        ('}' :: (printTasksTail l ++ [']']))) =
        printObj t ++ (printTasksTail l ++ ']' :: ([] : List Char)) := by
      simp [printObj]
    simp +decide only [refold, parseElems_print l t f [] hb]
    simp [encodeTasks]

/-! ### Round trip, layer 4: fuel bound and full parse -/

theorem printString_len (s : List Char) : 2 ≤ (printString s).length := by
  simp only [printString, List.length_cons, List.length_append]
  omega

theorem printMember_len (kv : List Char × List Char) :
    5 ≤ (printMember kv).length := by
  have h1 := printString_len kv.1
  have h2 := printString_len kv.2
  simp only [printMember, List.length_append, List.length_cons]
  omega

theorem printObj_len (t : Task) : 19 ≤ (printObj t).length := by
  rw [printObj, taskMembers_eq]
  simp only [printMembers, printMembersTail, List.length_append, List.length_cons]
  have h1 := printMember_len (['i', 'd'], t.id.data)
  have h2 := printMember_len (['t', 'i', 't', 'l', 'e'], t.title.data)
  have h3 := printMember_len (['d', 'a', 't', 'e', 'I', 'S', 'O'], toIso t.dateISO)
  omega

theorem printTasksTail_len (l : List Task) :
    l.length ≤ (printTasksTail l).length := by
  induction l with
  | nil => simp [printTasksTail]
  | cons t l ih =>
    simp only [printTasksTail, List.length_append, List.length_cons]
    omega

/-- `JSON.parse` applied to the serialized store always has enough fuel. -/
theorem jsonParse_saveTasks (ts : List Task) :
    jsonParse (saveTasks ts) = some (encodeTasks ts) := by
  have hlen : ts = [] ∨ ts.length + 11 ≤ (stringifyTasks ts).length + 1 := by
    cases ts with
    | nil => exact Or.inl rfl
    | cons t l =>
      refine Or.inr ?_
      have h1 := printObj_len t
      have h2 := printTasksTail_len l
      simp only [stringifyTasks, printTasks, List.length_append, List.length_cons]
      omega
  unfold jsonParse saveTasks
  rw [show (⟨stringifyTasks ts⟩ : String).data = stringifyTasks ts from rfl,
    parseValue_stringify ts _ (by omega) hlen]

/-! ### Round trip, layer 5: decoding -/

theorem decodeCadence_cadenceStr (c : Cadence) :
    decodeCadence (cadenceStr c) = some c := by
  cases c <;> decide

theorem decodeTask_encodeTask (t : Task) (h : GoodTask t) :
    decodeTask (encodeTask t) = some t := by
  obtain ⟨i, ti, dt, nA, cA, rp⟩ := t
  obtain ⟨h1, h2, h3⟩ :
      ValidISO dt ∧ (∀ d ∈ nA, ValidISO d) ∧ (∀ d ∈ cA, ValidISO d) := h
  have hs : ∀ s : String, String.mk s.data = s := fun _ => rfl
  have hiso := parseIso_toIso dt h1
  rcases nA with - | na <;> rcases cA with - | ca
  · rcases rp with - | rp <;>
      simp +decide [encodeTask, taskMembers, decodeTask, lookupKV, getStr, decodeOptIso,
        decodeOptCadence, decodeCadence_cadenceStr, hiso, hs]
  · have hca := parseIso_toIso ca (h3 ca (by simp))
    rcases rp with - | rp <;>
      simp +decide [encodeTask, taskMembers, decodeTask, lookupKV, getStr, decodeOptIso,
        decodeOptCadence, decodeCadence_cadenceStr, hiso, hs, hca]
  · have hna := parseIso_toIso na (h2 na (by simp))
    rcases rp with - | rp <;>
      simp +decide [encodeTask, taskMembers, decodeTask, lookupKV, getStr, decodeOptIso,
        decodeOptCadence, decodeCadence_cadenceStr, hiso, hs, hna]
  · have hna := parseIso_toIso na (h2 na (by simp))
    have hca := parseIso_toIso ca (h3 ca (by simp))
    rcases rp with - | rp <;>
      simp +decide [encodeTask, taskMembers, decodeTask, lookupKV, getStr, decodeOptIso,
        decodeOptCadence, decodeCadence_cadenceStr, hiso, hs, hna, hca]

theorem decodeTaskList_encode (ts : List Task) (h : ∀ t ∈ ts, GoodTask t) :
    decodeTaskList (ts.map encodeTask) = some ts := by
  induction ts with
  | nil => rfl
  | cons t l ih =>
    simp only [List.map_cons, decodeTaskList,
      decodeTask_encodeTask t (h t (by simp)), ih fun u hu => h u (by simp [hu])]

/-! ### The claims about persistence -/

/-- C7: `loadTasks` is total and degrades to the empty collection: an
absent stored value, an empty stored string (`!raw`), a string
`JSON.parse` rejects, and a parsed document that is not a well-formed task
array all yield `[]`; a stored document that parses and decodes is
returned as the task collection it denotes.  (In JS the non-array case
throws inside `parsed.map` and is caught by the same `try/catch` that
covers the parse failure.) -/
theorem claim_C7 :
    loadTasks none = [] ∧
    loadTasks (some "") = [] ∧
    (∀ raw : String, jsonParse raw = none → loadTasks (some raw) = []) ∧
    (∀ (raw : String) (j : Json), jsonParse raw = some j → decodeTasks j = none →
      loadTasks (some raw) = []) ∧
    (∀ (raw : String) (j : Json) (ts : List Task), jsonParse raw = some j →
      decodeTasks j = some ts → loadTasks (some raw) = ts) := by
  refine ⟨rfl, rfl, ?_, ?_, ?_⟩
  · intro raw hp
    simp only [loadTasks]
    by_cases hraw : raw = ""
    · rw [if_pos hraw]
    · rw [if_neg hraw, hp]
  · intro raw j hp hd
    simp only [loadTasks]
    by_cases hraw : raw = ""
    · rw [if_pos hraw]
    · rw [if_neg hraw, hp]
      simp [hd]
  · intro raw j ts hp hd
    simp only [loadTasks]
    by_cases hraw : raw = ""
    · subst hraw
      rw [show jsonParse "" = none from rfl] at hp
      cases hp
    · rw [if_neg hraw, hp]
      simp [hd]

theorem claim_C7_witness :
    loadTasks none = [] ∧ jsonParse "\x7b" = none ∧ loadTasks (some "\x7b") = [] :=
  ⟨claim_C7.1, by rfl, claim_C7.2.2.1 "\x7b" (by rfl)⟩

/-- C8: round trip — persisting any collection of tasks whose timestamps
are representable calendar instants (years 0..9999, the `toISOString`
basic format) and loading it back reproduces the same collection: same
identifiers, titles, timestamps, cadences, and order. -/
theorem claim_C8 (ts : List Task) (h : ∀ t ∈ ts, GoodTask t) :
    loadTasks (some (saveTasks ts)) = ts := by
  have hne : saveTasks ts ≠ "" := by
    intro hEq
    have hd := congrArg String.data hEq
    simp [saveTasks, stringifyTasks] at hd
  simp only [loadTasks]
  rw [if_neg hne, jsonParse_saveTasks ts]
  simp [decodeTasks, encodeTasks, decodeTaskList_encode ts h]

theorem claim_C8_witness :
    (∀ t ∈ [(⟨"a", "buy \"milk\"\n", ⟨2024, 1, 5, 32400000⟩, some ⟨2024, 1, 5, 32405000⟩,
        some ⟨2024, 12, 31, 86399999⟩, some Cadence.weekdays⟩ : Task),
      ⟨"b", "t2", ⟨0, 1, 1, 0⟩, none, none, none⟩], GoodTask t) ∧
    loadTasks (some (saveTasks
      [⟨"a", "buy \"milk\"\n", ⟨2024, 1, 5, 32400000⟩, some ⟨2024, 1, 5, 32405000⟩,
        some ⟨2024, 12, 31, 86399999⟩, some Cadence.weekdays⟩,
       ⟨"b", "t2", ⟨0, 1, 1, 0⟩, none, none, none⟩])) =
      [⟨"a", "buy \"milk\"\n", ⟨2024, 1, 5, 32400000⟩, some ⟨2024, 1, 5, 32405000⟩,
        some ⟨2024, 12, 31, 86399999⟩, some Cadence.weekdays⟩,
       ⟨"b", "t2", ⟨0, 1, 1, 0⟩, none, none, none⟩] :=
  ⟨by decide, claim_C8 _ (by decide)⟩

end Todo

